import Mathlib

/-!
Verification of the organoid tracking and plotting pipeline.

Part 1 embeds `OrganoidTracker.py` (the per-frame metric extraction in
`process_frame` and the timestamping loop in `main`); part 2 embeds the
signal-cleaning loop of `OrganoidPlotter.py` (centroid exclusion, z-score
outlier masking, interpolation / edge filling, Savitzky-Golay smoothing,
rolling average, reindexing).  Machine floats are idealised as rationals;
the float constant `np.pi` is embedded as its exact IEEE-754 double value.
Library calls (cv2, pandas, scipy) are modelled from their documented
semantics; fallible Python operations (the unguarded integer division
`w / h`, scipy's `ValueError` on an oversized window) return `Option`.
-/

/-! ## OrganoidTracker.py: configuration constants (lines 15-23) -/

/-- Source `min_area = 2000` (line 19). -/
def min_area : ℚ := 2000

/-- Source `frame_skip = 1` (line 18). -/
def frame_skip : ℕ := 1

/-- Source `total_duration = timedelta(days=14)` (line 21), in seconds. -/
def total_duration : ℚ := 1209600

/-- The exact value of the IEEE-754 double `np.pi`. -/
def npPi : ℚ := 884279719003555 / 281474976710656

/-- Python `int()` applied to a (rational-valued) float: truncation toward
zero. -/
def pyInt (q : ℚ) : ℤ := if q < 0 then ⌈q⌉ else ⌊q⌋

/-! ## The quantities cv2 derives from one contour

`process_frame` consumes a contour only through `cv2.contourArea`,
`cv2.arcLength`, `cv2.moments`, `cv2.boundingRect` and the area of the
convex hull (lines 57-66).  Those library outputs are collected in one
record; the arithmetic performed on them is embedded exactly. -/

structure ContourMeasures where
  area : ℚ
  perimeter : ℚ
  m00 : ℚ
  m10 : ℚ
  m01 : ℚ
  x : ℤ
  y : ℤ
  w : ℕ
  h : ℕ
  hull_area : ℚ
deriving DecidableEq

/-- Source `cx = int(M["m10"] / M["m00"]) if M["m00"] else 0` (line 60). -/
def centroid_x_of (m00 m10 : ℚ) : ℤ :=
  if m00 ≠ 0 then pyInt (m10 / m00) else 0

/-- Source `cy = int(M["m01"] / M["m00"]) if M["m00"] else 0` (line 61). -/
def centroid_y_of (m00 m01 : ℚ) : ℤ :=
  if m00 ≠ 0 then pyInt (m01 / m00) else 0

/-- Source `aspect_ratio = w / h` (line 63): an UNGUARDED true division; Python
raises `ZeroDivisionError` when `h = 0`, embedded as `none`. -/
def aspect_ratio_of (w h : ℕ) : Option ℚ :=
  if h = 0 then none else some ((w : ℚ) / (h : ℚ))

/-- Source `shape_factor = (4 * np.pi * area) / (perimeter ** 2) if perimeter else 0`
(line 64). -/
def shape_factor_of (area perimeter : ℚ) : ℚ :=
  if perimeter ≠ 0 then 4 * npPi * area / perimeter ^ 2 else 0

/-- Source `solidity = area / hull_area if hull_area else 0` (line 67). -/
def solidity_of (area hull_area : ℚ) : ℚ :=
  if hull_area ≠ 0 then area / hull_area else 0

/-- Source `extent = area / (w * h) if w * h else 0` (line 68). -/
def extent_of (area : ℚ) (w h : ℕ) : ℚ :=
  if w * h ≠ 0 then area / ((w : ℚ) * (h : ℚ)) else 0

/-- Source `eccentricity = np.sqrt(1 - (min(w, h) / max(w, h)) ** 2) if max(w, h)
else 0` (line 69). -/
noncomputable def eccentricity_of (w h : ℕ) : ℝ :=
  if max w h ≠ 0 then Real.sqrt (1 - ((min w h : ℝ) / (max w h : ℝ)) ^ 2) else 0

/-- One row of `contour_data` (lines 71-82). -/
structure MetricRecord where
  timestamp : ℚ
  area : ℚ
  perimeter : ℚ
  centroid_x : ℤ
  centroid_y : ℤ
  aspect_ratio_val : ℚ
  shape_factor : ℚ
  solidity : ℚ
  extent : ℚ
  eccentricity : ℝ

/-- The dict appended to `contour_data` (lines 57-82).  The alternative is
`none` exactly when the unguarded division `w / h` raises. -/
noncomputable def mkRecord (ts : ℚ) (c : ContourMeasures) : Option MetricRecord :=
  (aspect_ratio_of c.w c.h).map fun ar =>
    { timestamp := ts
      area := c.area
      perimeter := c.perimeter
      centroid_x := centroid_x_of c.m00 c.m10
      centroid_y := centroid_y_of c.m00 c.m01
      aspect_ratio_val := ar
      shape_factor := shape_factor_of c.area c.perimeter
      solidity := solidity_of c.area c.hull_area
      extent := extent_of c.area c.w c.h
      eccentricity := eccentricity_of c.w c.h }

/-- Source `cnt = max(contours, key=cv2.contourArea)` (line 51): Python `max` keeps
the first of several maximal elements. -/
def maxByArea : List ContourMeasures → Option ContourMeasures
  | [] => none
  | c :: cs => some (cs.foldl (fun best x => if best.area < x.area then x else best) c)

/-- Source `process_frame(frame, timestamp)` (lines 29-89), from the contour stage
on (the cv2 segmentation that produces the contour list is abstracted into
the input).  Returns the optional record together with a flag recording
whether the overlay drawing (lines 85-88) ran on the frame; the outer
`Option` is `none` when the record computation raises. -/
noncomputable def process_frame (contours : List ContourMeasures) (ts : ℚ) :
    Option (Option MetricRecord × Bool) :=
  match maxByArea contours with
  | none => some (none, false)
  | some cnt =>
      if cnt.area < min_area then some (none, false)
      else (mkRecord ts cnt).map fun r => (some r, true)

/-- Source `ts = start_time + frame_idx * frame_period` with
`frame_period = total_duration / total_frames` (lines 101, 118). -/
def frameTs (start : ℚ) (totalFrames : ℕ) (idx : ℕ) : ℚ :=
  start + idx * (total_duration / totalFrames)

/-- The frame loop of `main` (lines 106-123): frames in increasing index
order, every `frame_skip`-th analysed, each retained frame appending one
record to `contour_data`. -/
noncomputable def runTracker (start : ℚ) (totalFrames : ℕ) :
    ℕ → List (List ContourMeasures) → Option (List MetricRecord)
  | _, [] => some []
  | i, cs :: rest =>
      if i % frame_skip ≠ 0 then runTracker start totalFrames (i + 1) rest
      else
        match process_frame cs (frameTs start totalFrames i) with
        | none => none
        | some (none, _) => runTracker start totalFrames (i + 1) rest
        | some (some r, _) => (runTracker start totalFrames (i + 1) rest).map (r :: ·)

/-! ## OrganoidPlotter.py: configuration constants (lines 25-51) -/

/-- Source `APPLY_ROLLING = 1` (line 26). -/
def APPLY_ROLLING : Bool := true

/-- Source `ROLLING_WINDOW = 50` (line 27). -/
def ROLLING_WINDOW : ℕ := 50

/-- Source `z_thresh = 3` (line 49). -/
def z_thresh : ℚ := 3

/-- Source `window_length = 10` (line 50); the comment next to it says the window
must be odd, the value is even. -/
def window_length : ℕ := 10

/-- Source `poly_order = 7` (line 51). -/
def poly_order : ℕ := 7

/-! ## Statistics and the z-score mask (lines 64-66)

`pandas` float arithmetic is idealised over `ℚ`; the one place the float
semantics matters is the comparison `z_scores.abs() > z_thresh` when
`series.std(ddof=0)` is zero: every deviation is then zero, `0.0 / 0.0` is
NaN, and a NaN comparison is `False`, so nothing is masked.  Squaring both
sides of `|x - mean| / std > z_thresh` gives the equivalent rational test
`(x - mean)^2 > z_thresh^2 * var` guarded by `var ≠ 0`. -/

/-- Source `series.mean()`. -/
def popMean (xs : List ℚ) : ℚ := xs.sum / xs.length

/-- Source `series.std(ddof=0) ** 2`: the population variance. -/
def popVar (xs : List ℚ) : ℚ :=
  ((xs.map fun x => (x - popMean xs) ^ 2).sum) / xs.length

/-- Source `series.mask(z_scores.abs() > z_thresh)` with
`z_scores = (series - series.mean()) / series.std(ddof=0)` (lines 65-66):
`none` marks a sample masked to NaN. -/
def zMaskVals (xs : List ℚ) : List (Option ℚ) :=
  xs.map fun x =>
    if popVar xs ≠ 0 ∧ (x - popMean xs) ^ 2 > z_thresh ^ 2 * popVar xs then none
    else some x

/-! ## Gap filling (lines 69-70)

`series.interpolate()` (default `method='linear'`): interior NaN runs are
filled linearly by position, a trailing NaN run is filled with the last
valid value, a leading NaN run is left missing; `bfill()` then fills from
the next valid value and `ffill()` from the previous one.  All three are
positional, so they are embedded index-wise. -/

/-- The first valid (non-NaN) entry of a series, with its position. -/
def firstValidIn : List (Option ℚ) → Option (ℕ × ℚ)
  | [] => none
  | some v :: _ => some (0, v)
  | none :: rest => (firstValidIn rest).map fun p => (p.1 + 1, p.2)

/-- The last valid (non-NaN) entry of a series, with its position. -/
def lastValidIn : List (Option ℚ) → Option (ℕ × ℚ)
  | [] => none
  | x :: rest =>
      match lastValidIn rest with
      | some p => some (p.1 + 1, p.2)
      | none => x.map fun v => (0, v)

/-- The nearest valid entry strictly before position `i`. -/
def prevValid (xs : List (Option ℚ)) (i : ℕ) : Option (ℕ × ℚ) :=
  lastValidIn (xs.take i)

/-- The nearest valid entry strictly after position `i`. -/
def nextValid (xs : List (Option ℚ)) (i : ℕ) : Option (ℕ × ℚ) :=
  (firstValidIn (xs.drop (i + 1))).map fun p => (i + 1 + p.1, p.2)

/-- Source `series_filtered.interpolate()` (line 69). -/
def interpolateL (xs : List (Option ℚ)) : List (Option ℚ) :=
  (List.range xs.length).map fun i =>
    match xs.getD i none with
    | some v => some v
    | none =>
        match prevValid xs i, nextValid xs i with
        | some p, some q =>
            some (p.2 + (q.2 - p.2) * ((i : ℚ) - (p.1 : ℚ)) / ((q.1 : ℚ) - (p.1 : ℚ)))
        | some p, none => some p.2
        | none, _ => none

/-- Source `.bfill()` (line 70). -/
def bfillL (xs : List (Option ℚ)) : List (Option ℚ) :=
  (List.range xs.length).map fun i =>
    match xs.getD i none with
    | some v => some v
    | none => (nextValid xs i).map Prod.snd

/-- Source `.ffill()` (line 70). -/
def ffillL (xs : List (Option ℚ)) : List (Option ℚ) :=
  (List.range xs.length).map fun i =>
    match xs.getD i none with
    | some v => some v
    | none => (prevValid xs i).map Prod.snd

/-- The whole gap-filling stage: `interpolate()` then `bfill()` then
`ffill()` (lines 69-70). -/
def gapFill (xs : List (Option ℚ)) : List (Option ℚ) :=
  ffillL (bfillL (interpolateL xs))

/-! ## Savitzky-Golay window selection (lines 73-78) -/

/-- Source `win = min(window_length, n_points if n_points % 2 == 1 else n_points - 1);
if win < 5: win = 5 if n_points >= 5 else (n_points | 1)` (lines 74-76).
The first computation is over Python ints, hence over `ℤ` (`n - 1` is `-1`
for an empty series). -/
def winOf (n : ℕ) : ℕ :=
  let w : ℤ := min (window_length : ℤ) (if n % 2 = 1 then (n : ℤ) else (n : ℤ) - 1)
  if w < 5 then (if 5 ≤ n then 5 else n ||| 1) else w.toNat

/-- Source `polyorder = min(poly_order, win - 1)` (line 78). -/
def polyOrderOf (win : ℕ) : ℕ := min poly_order (win - 1)

/-! ## Savitzky-Golay smoothing (`scipy.signal.savgol_filter`, line 78)

Modelled from scipy's documented semantics in the default `mode='interp'`:
every output sample is the value at the sample's position of the
least-squares polynomial of degree `polyorder` fitted to a window of
`window_length` consecutive samples.  The first and last `window_length // 2`
outputs come from the fit over the first / last full window; an interior
output comes from the window centred on it, evaluated at the centre (at the
half-sample centre `window_length // 2 - 1/2` for an even window, scipy's
convention for even window lengths).  The least-squares fit is computed
exactly over `ℚ` through the normal equations, solved by Gaussian
elimination.  scipy raises (embedded: `none`) when the window exceeds the
series length in `mode='interp'` or when `polyorder >= window_length`. -/

/-- Dot product of two coefficient lists. -/
def dotL (xs ys : List ℚ) : ℚ := ((xs.zip ys).map fun p => p.1 * p.2).sum

/-- Source `[t^0, t^1, ..., t^d]`. -/
def powersTo (d : ℕ) (t : ℚ) : List ℚ := (List.range (d + 1)).map fun k => t ^ k

/-- Row `j` of the normal equations `AᵀA c = Aᵀ y` of the degree-`d`
least-squares problem on nodes `ts` with values `ys`, augmented with its
right-hand side. -/
def normalRow (ts ys : List ℚ) (d j : ℕ) : List ℚ :=
  ((List.range (d + 1)).map fun k => (ts.map fun t => t ^ (j + k)).sum) ++
    [dotL (ts.map fun t => t ^ j) ys]

/-- First row with a nonzero leading entry, and the remaining rows. -/
def pivotRow : List (List ℚ) → Option (List ℚ × List (List ℚ))
  | [] => none
  | r :: rs =>
      if r.headD 0 ≠ 0 then some (r, rs)
      else (pivotRow rs).map fun pr => (pr.1, r :: pr.2)

/-- Subtract `r.head` times the (normalised) pivot row from `r` and drop the
eliminated leading column. -/
def elimWith (p r : List ℚ) : List ℚ :=
  (List.zipWith (fun a b => a - r.headD 0 * b) r p).tail

/-- Gaussian elimination with back substitution on an augmented matrix; the
fuel is the number of unknowns.  `none` on a singular system. -/
def gaussAux : ℕ → List (List ℚ) → Option (List ℚ)
  | 0, _ => some []
  | fuel + 1, rows => do
      let pr ← pivotRow rows
      let p := pr.1.map (· / pr.1.headD 1)
      let xs ← gaussAux fuel (pr.2.map fun r => elimWith p r)
      let t := p.tail
      pure ((t.getLastD 0 - dotL t.dropLast xs) :: xs)

/-- Least-squares polynomial coefficients of degree `d` on nodes `ts` with
values `ys`.  The fallback on a singular system is never exercised: the
normal matrix of distinct nodes with `d + 1 <= ts.length` is invertible. -/
def polyfitCoeffs (ts ys : List ℚ) (d : ℕ) : List ℚ :=
  (gaussAux (d + 1) ((List.range (d + 1)).map fun j => normalRow ts ys d j)).getD
    (List.replicate (d + 1) 0)

/-- Evaluate a coefficient list at `t`. -/
def polyEval (cs : List ℚ) (t : ℚ) : ℚ := dotL cs (powersTo (cs.length - 1) t)

/-- Fit on `(ts, ys)` with degree `d` and evaluate at `t`. -/
def polyfitEval (ts ys : List ℚ) (d : ℕ) (t : ℚ) : ℚ :=
  polyEval (polyfitCoeffs ts ys d) t

/-- The body of `savgol_filter(..., mode='interp')` once its argument checks
have passed. -/
def savgolCore (w po : ℕ) (xs : List ℚ) : List ℚ :=
  let n := xs.length
  let halflen := w / 2
  let ts := (List.range w).map fun k => (k : ℚ)
  (List.range n).map fun i =>
    if i < halflen then
      polyfitEval ts (xs.take w) po (i : ℚ)
    else if n - halflen ≤ i then
      polyfitEval ts (xs.drop (n - w)) po ((i : ℚ) - ((n : ℚ) - (w : ℚ)))
    else
      polyfitEval ts ((xs.drop (i - halflen)).take w) po
        (if w % 2 = 1 then (halflen : ℚ) else (halflen : ℚ) - 1 / 2)

/-- Source `scipy.signal.savgol_filter(x, window_length, polyorder)` (line 78):
`none` embeds the `ValueError` raised when `polyorder >= window_length` or,
in the default `mode='interp'`, when `window_length > x.size`. -/
def savgol_filter (xs : List ℚ) (w po : ℕ) : Option (List ℚ) :=
  if po < w ∧ w ≤ xs.length then some (savgolCore w po xs) else none

/-- Source `sg_series.rolling(window=ROLLING_WINDOW, center=True, min_periods=1).mean()`
(line 83): centred window `[i - w + w/2 + 1, i + w/2]` clipped to the series,
never empty since `min_periods=1` and the window always contains `i`. -/
def rollingMean (w : ℕ) (xs : List ℚ) : List ℚ :=
  let n := xs.length
  (List.range n).map fun i =>
    let hi := min (n - 1) (i + w / 2)
    let lo := i + w / 2 + 1 - w
    popMean ((xs.drop lo).take (hi + 1 - lo))

/-! ## The cleaning loop (lines 56-90)

One iteration of `for metric in metrics + ["centroid_x", "centroid_y"]`,
per metric: select the per-metric series (dropping, for the centroid
metrics, the rows with both coordinates below 650, lines 60-62), mask
z-score outliers, fill gaps, smooth, and reindex the result onto the full
original index (line 90).  Rows are indexed by position, standing for the
(distinct, increasing) timestamp labels of `clean_df.index`. -/

/-- The columns of `clean_df` the loop reads. -/
structure Row where
  area : ℚ
  solidity : ℚ
  centroid_x : ℚ
  centroid_y : ℚ
deriving DecidableEq

/-- The metrics the loop runs over: `metrics + ["centroid_x", "centroid_y"]`
(lines 42-45, 56). -/
inductive Metric where
  | area
  | solidity
  | centroid_x
  | centroid_y
deriving DecidableEq

/-- Source `clean_df[metric]` for one row. -/
def Row.getMetric (r : Row) : Metric → ℚ
  | .area => r.area
  | .solidity => r.solidity
  | .centroid_x => r.centroid_x
  | .centroid_y => r.centroid_y

/-- Source `metric in ["centroid_x", "centroid_y"]` (line 60). -/
def isCentroidMetric : Metric → Bool
  | .centroid_x => true
  | .centroid_y => true
  | _ => false

/-- Source `mask = ~((clean_df["centroid_x"] < 650) & (clean_df["centroid_y"] < 650))`
(line 61): `true` exactly on the rows the mask keeps. -/
def keepRow (r : Row) : Bool :=
  !(decide (r.centroid_x < 650) && decide (r.centroid_y < 650))

/-- Source `series = clean_df[metric]`, then `series = series[mask]` for the
centroid metrics (lines 57-62): the per-metric series as (original row
position, value) pairs. -/
def selectSeries (m : Metric) (df : List Row) : List (ℕ × ℚ) :=
  let rows := (List.range df.length).zip df
  let kept := if isCentroidMetric m then rows.filter (fun p => keepRow p.2) else rows
  kept.map fun p => (p.1, p.2.getMetric m)

/-- A gap-filled series handed to scipy as a float array.  The default is
never read: after `bfill().ffill()` a non-empty series has no missing entry
(`gapFill_all_isSome` below). -/
def unNaN (xs : List (Option ℚ)) : List ℚ := xs.map fun o => o.getD 0

/-- Lines 57-89 for one metric: outlier masking, interpolation and edge
filling, Savitzky-Golay smoothing, optional rolling average.  The result
keeps the selected series' index labels (line 89); `none` embeds the
`ValueError` scipy raises when the chosen window exceeds the series
length. -/
def cleanSeries (m : Metric) (df : List Row) : Option (List (ℕ × ℚ)) :=
  let sel := selectSeries m df
  let filled := gapFill (zMaskVals (sel.map Prod.snd))
  let vals := unNaN filled
  let win := winOf vals.length
  (savgol_filter vals win (polyOrderOf win)).map fun sg =>
    let sm := if APPLY_ROLLING ∧ 2 ≤ ROLLING_WINDOW then rollingMean ROLLING_WINDOW sg else sg
    (sel.map Prod.fst).zip sm

/-- Source `smoothed_series.reindex(clean_df.index)` (line 90): label `i` gets the
series value at label `i`, or NaN when the label is absent. -/
def reindex (n : ℕ) (s : List (ℕ × ℚ)) : List (Option ℚ) :=
  (List.range n).map fun i => (s.find? fun p => p.1 == i).map Prod.snd

/-- Source `clean_df[f"{metric}_smooth"]` (line 90): one metric's cleaned series
aligned with the full original index. -/
def cleanMetric (m : Metric) (df : List Row) : Option (List (Option ℚ)) :=
  (cleanSeries m df).map fun s => reindex df.length s

/-! ## Concrete inputs used in the counterexamples and witnesses -/

/-- Two data-frame rows: the first has both centroid coordinates below 650
(excluded by the centroid pre-filter), the second is kept. -/
def exDf : List Row :=
  [{ area := 1, solidity := 1, centroid_x := 100, centroid_y := 100 },
   { area := 1, solidity := 1, centroid_x := 700, centroid_y := 700 }]

/-- A constant series of value 10 with 10000 injected after `k` leading and
before `m` trailing samples. -/
def injectedSeries (k m : ℕ) : List ℚ :=
  List.replicate k 10 ++ 10000 :: List.replicate m 10

/-- A contour passing the `min_area` filter, with a non-degenerate bounding
box. -/
def sampleContour : ContourMeasures :=
  { area := 2500, perimeter := 180, m00 := 2500, m10 := 2250000, m01 := 2300000,
    x := 850, y := 880, w := 60, h := 55, hull_area := 2600 }

/-! ## Helper lemmas: positional access -/

theorem getD_range_map {α : Type} (f : ℕ → α) (d : α) {n i : ℕ} (h : i < n) :
    (((List.range n).map f).getD i d) = f i := by
  rw [List.getD_eq_getElem?_getD]
  simp [List.getElem?_map, List.getElem?_range, h]

theorem interpolateL_length (xs : List (Option ℚ)) :
    (interpolateL xs).length = xs.length := by
  simp [interpolateL]

theorem bfillL_length (xs : List (Option ℚ)) : (bfillL xs).length = xs.length := by
  simp [bfillL]

theorem ffillL_length (xs : List (Option ℚ)) : (ffillL xs).length = xs.length := by
  simp [ffillL]

theorem gapFill_length (xs : List (Option ℚ)) : (gapFill xs).length = xs.length := by
  simp [gapFill, ffillL_length, bfillL_length, interpolateL_length]

theorem zMaskVals_length (xs : List ℚ) : (zMaskVals xs).length = xs.length := by
  simp [zMaskVals]

theorem unNaN_length (xs : List (Option ℚ)) : (unNaN xs).length = xs.length := by
  simp [unNaN]

theorem savgolCore_length (w po : ℕ) (xs : List ℚ) :
    (savgolCore w po xs).length = xs.length := by
  simp [savgolCore]

theorem rollingMean_length (w : ℕ) (xs : List ℚ) :
    (rollingMean w xs).length = xs.length := by
  simp [rollingMean]

theorem reindex_length (n : ℕ) (s : List (ℕ × ℚ)) : (reindex n s).length = n := by
  simp [reindex]

/-! ## Helper lemmas: locating valid samples -/

theorem firstValidIn_eq_some (l : List (Option ℚ)) (q : ℕ) (v : ℚ)
    (hq : l.getD q none = some v) (hbefore : ∀ j, j < q → l.getD j none = none) :
    firstValidIn l = some (q, v) := by
  induction l generalizing q with
  | nil => simp at hq
  | cons x rest ih =>
      cases q with
      | zero =>
          rw [List.getD_cons_zero] at hq
          subst hq
          rfl
      | succ q' =>
          have hx : x = none := by
            have := hbefore 0 (Nat.succ_pos q')
            rwa [List.getD_cons_zero] at this
          subst hx
          rw [List.getD_cons_succ] at hq
          have hb' : ∀ j, j < q' → rest.getD j none = none := by
            intro j hj
            have := hbefore (j + 1) (Nat.succ_lt_succ hj)
            rwa [List.getD_cons_succ] at this
          simp [firstValidIn, ih q' hq hb']

theorem firstValidIn_eq_none (l : List (Option ℚ))
    (h : ∀ j, j < l.length → l.getD j none = none) : firstValidIn l = none := by
  induction l with
  | nil => rfl
  | cons x rest ih =>
      have hx : x = none := by
        have := h 0 (by simp)
        rwa [List.getD_cons_zero] at this
      subst hx
      have h' : ∀ j, j < rest.length → rest.getD j none = none := by
        intro j hj
        have := h (j + 1) (by simpa using Nat.succ_lt_succ hj)
        rwa [List.getD_cons_succ] at this
      simp [firstValidIn, ih h']

theorem lastValidIn_eq_none (l : List (Option ℚ))
    (h : ∀ j, j < l.length → l.getD j none = none) : lastValidIn l = none := by
  induction l with
  | nil => rfl
  | cons x rest ih =>
      have hx : x = none := by
        have := h 0 (by simp)
        rwa [List.getD_cons_zero] at this
      subst hx
      have h' : ∀ j, j < rest.length → rest.getD j none = none := by
        intro j hj
        have := h (j + 1) (by simpa using Nat.succ_lt_succ hj)
        rwa [List.getD_cons_succ] at this
      simp [lastValidIn, ih h']

theorem lastValidIn_eq_some (l : List (Option ℚ)) (p : ℕ) (v : ℚ)
    (hp : l.getD p none = some v)
    (hafter : ∀ j, j < l.length → p < j → l.getD j none = none) :
    lastValidIn l = some (p, v) := by
  induction l generalizing p with
  | nil => simp at hp
  | cons x rest ih =>
      cases p with
      | zero =>
          rw [List.getD_cons_zero] at hp
          subst hp
          have hrest : lastValidIn rest = none := by
            apply lastValidIn_eq_none
            intro j hj
            have := hafter (j + 1) (by simpa using Nat.succ_lt_succ hj) (Nat.succ_pos j)
            rwa [List.getD_cons_succ] at this
          simp [lastValidIn, hrest]
      | succ p' =>
          rw [List.getD_cons_succ] at hp
          have ha' : ∀ j, j < rest.length → p' < j → rest.getD j none = none := by
            intro j hj hpj
            have := hafter (j + 1) (by simpa using Nat.succ_lt_succ hj)
              (Nat.succ_lt_succ hpj)
            rwa [List.getD_cons_succ] at this
          simp [lastValidIn, ih p' hp ha']

theorem getD_take (l : List (Option ℚ)) {n i : ℕ} (h : i < n) :
    (l.take n).getD i none = l.getD i none := by
  rw [List.getD_eq_getElem?_getD, List.getD_eq_getElem?_getD, List.getElem?_take]
  simp [h]

theorem getD_drop (l : List (Option ℚ)) (n i : ℕ) :
    (l.drop n).getD i none = l.getD (n + i) none := by
  rw [List.getD_eq_getElem?_getD, List.getD_eq_getElem?_getD, List.getElem?_drop]

theorem prevValid_eq_some (xs : List (Option ℚ)) (i p : ℕ) (v : ℚ) (hpi : p < i)
    (hp : xs.getD p none = some v)
    (hgap : ∀ j, j < i → p < j → xs.getD j none = none) :
    prevValid xs i = some (p, v) := by
  apply lastValidIn_eq_some
  · rwa [getD_take xs hpi]
  · intro j hj hpj
    have hji : j < i := lt_of_lt_of_le hj (by simp [List.length_take])
    rw [getD_take xs hji]
    exact hgap j hji hpj

theorem prevValid_eq_none (xs : List (Option ℚ)) (i : ℕ)
    (h : ∀ j, j < i → xs.getD j none = none) : prevValid xs i = none := by
  apply lastValidIn_eq_none
  intro j hj
  have hji : j < i := lt_of_lt_of_le hj (by simp [List.length_take])
  rw [getD_take xs hji]
  exact h j hji

theorem nextValid_eq_some (xs : List (Option ℚ)) (i q : ℕ) (v : ℚ) (hiq : i < q)
    (hq : xs.getD q none = some v)
    (hgap : ∀ j, j < q → i < j → xs.getD j none = none) :
    nextValid xs i = some (q, v) := by
  have hfv : firstValidIn (xs.drop (i + 1)) = some (q - (i + 1), v) := by
    apply firstValidIn_eq_some
    · rw [getD_drop]
      have : i + 1 + (q - (i + 1)) = q := by omega
      rwa [this]
    · intro j hj
      rw [getD_drop]
      exact hgap (i + 1 + j) (by omega) (by omega)
  have harith : i + 1 + (q - (i + 1)) = q := by omega
  simp [nextValid, hfv, harith]

theorem nextValid_eq_none (xs : List (Option ℚ)) (i : ℕ)
    (h : ∀ j, j < xs.length → i < j → xs.getD j none = none) :
    nextValid xs i = none := by
  have hfv : firstValidIn (xs.drop (i + 1)) = none := by
    apply firstValidIn_eq_none
    intro j hj
    rw [getD_drop]
    rw [List.length_drop] at hj
    exact h (i + 1 + j) (by omega) (by omega)
  simp [nextValid, hfv]

/-! ## Helper lemmas: the gap-filling stages pointwise -/

theorem interpolateL_getD_of_some (xs : List (Option ℚ)) {i : ℕ} {v : ℚ}
    (h : xs.getD i none = some v) (hi : i < xs.length) :
    (interpolateL xs).getD i none = some v := by
  rw [interpolateL, getD_range_map _ _ hi, h]

theorem interpolateL_interior (xs : List (Option ℚ)) {i : ℕ} {p q : ℕ × ℚ}
    (h : xs.getD i none = none) (hi : i < xs.length)
    (hp : prevValid xs i = some p) (hq : nextValid xs i = some q) :
    (interpolateL xs).getD i none =
      some (p.2 + (q.2 - p.2) * ((i : ℚ) - (p.1 : ℚ)) / ((q.1 : ℚ) - (p.1 : ℚ))) := by
  rw [interpolateL, getD_range_map _ _ hi, h, hp, hq]

theorem interpolateL_leading (xs : List (Option ℚ)) {i : ℕ}
    (h : xs.getD i none = none) (hi : i < xs.length)
    (hp : prevValid xs i = none) :
    (interpolateL xs).getD i none = none := by
  rw [interpolateL, getD_range_map _ _ hi, h, hp]

theorem interpolateL_trailing (xs : List (Option ℚ)) {i : ℕ} {p : ℕ × ℚ}
    (h : xs.getD i none = none) (hi : i < xs.length)
    (hp : prevValid xs i = some p) (hq : nextValid xs i = none) :
    (interpolateL xs).getD i none = some p.2 := by
  rw [interpolateL, getD_range_map _ _ hi, h, hp, hq]

theorem bfillL_getD_of_some (xs : List (Option ℚ)) {i : ℕ} {v : ℚ}
    (h : xs.getD i none = some v) (hi : i < xs.length) :
    (bfillL xs).getD i none = some v := by
  rw [bfillL, getD_range_map _ _ hi, h]

theorem bfillL_getD_of_none (xs : List (Option ℚ)) {i : ℕ}
    (h : xs.getD i none = none) (hi : i < xs.length) :
    (bfillL xs).getD i none = (nextValid xs i).map Prod.snd := by
  rw [bfillL, getD_range_map _ _ hi, h]

theorem ffillL_getD_of_some (xs : List (Option ℚ)) {i : ℕ} {v : ℚ}
    (h : xs.getD i none = some v) (hi : i < xs.length) :
    (ffillL xs).getD i none = some v := by
  rw [ffillL, getD_range_map _ _ hi, h]

theorem ffillL_getD_of_none (xs : List (Option ℚ)) {i : ℕ}
    (h : xs.getD i none = none) (hi : i < xs.length) :
    (ffillL xs).getD i none = (prevValid xs i).map Prod.snd := by
  rw [ffillL, getD_range_map _ _ hi, h]

/-- A sample present in the input survives the whole gap-filling stage. -/
theorem gapFill_getD_of_some (xs : List (Option ℚ)) {i : ℕ} {v : ℚ}
    (h : xs.getD i none = some v) (hi : i < xs.length) :
    (gapFill xs).getD i none = some v := by
  have h1 := interpolateL_getD_of_some xs h hi
  have hi1 : i < (interpolateL xs).length := by rwa [interpolateL_length]
  have h2 := bfillL_getD_of_some _ h1 hi1
  have hi2 : i < (bfillL (interpolateL xs)).length := by rwa [bfillL_length]
  exact ffillL_getD_of_some _ h2 hi2

/-- An interior missing sample, with its nearest valid samples at positions
`p < i < q` and nothing valid in between, is linearly interpolated. -/
theorem gapFill_interior (xs : List (Option ℚ)) (i p q : ℕ) (vp vq : ℚ)
    (hpi : p < i) (hiq : i < q) (hq : q < xs.length)
    (hvp : xs.getD p none = some vp) (hvq : xs.getD q none = some vq)
    (hgap : ∀ j, j < q → p < j → xs.getD j none = none) :
    (gapFill xs).getD i none =
      some (vp + (vq - vp) * ((i : ℚ) - (p : ℚ)) / ((q : ℚ) - (p : ℚ))) := by
  have hi : i < xs.length := lt_trans hiq hq
  have h0 : xs.getD i none = none := hgap i hiq hpi
  have hprev : prevValid xs i = some (p, vp) :=
    prevValid_eq_some xs i p vp hpi hvp
      (fun j hj hpj => hgap j (lt_trans hj hiq) hpj)
  have hnext : nextValid xs i = some (q, vq) :=
    nextValid_eq_some xs i q vq hiq hvq
      (fun j hj hij => hgap j hj (lt_trans hpi hij))
  have h1 := interpolateL_interior xs h0 hi hprev hnext
  have hi1 : i < (interpolateL xs).length := by rwa [interpolateL_length]
  have h2 := bfillL_getD_of_some _ h1 hi1
  have hi2 : i < (bfillL (interpolateL xs)).length := by rwa [bfillL_length]
  exact ffillL_getD_of_some _ h2 hi2

/-- A leading missing run (every sample before the first valid one at `q`)
is back-filled with the first valid value. -/
theorem gapFill_leading (xs : List (Option ℚ)) (i q : ℕ) (v : ℚ)
    (hiq : i < q) (hq : q < xs.length) (hv : xs.getD q none = some v)
    (hbefore : ∀ j, j < q → xs.getD j none = none) :
    (gapFill xs).getD i none = some v := by
  have interpAt : ∀ j, j < q → (interpolateL xs).getD j none = none := by
    intro j hj
    exact interpolateL_leading xs (hbefore j hj) (lt_trans hj hq)
      (prevValid_eq_none xs j (fun k hk => hbefore k (lt_trans hk hj)))
  have hqlen' : q < (interpolateL xs).length := by rwa [interpolateL_length]
  have interpQ : (interpolateL xs).getD q none = some v :=
    interpolateL_getD_of_some xs hv hq
  have hi1 : i < (interpolateL xs).length := by rw [interpolateL_length]; omega
  have h2 : (bfillL (interpolateL xs)).getD i none = some v := by
    rw [bfillL_getD_of_none _ (interpAt i hiq) hi1]
    rw [nextValid_eq_some (interpolateL xs) i q v hiq interpQ
      (fun j hj _ => interpAt j hj)]
    rfl
  have hi2 : i < (bfillL (interpolateL xs)).length := by rwa [bfillL_length]
  exact ffillL_getD_of_some _ h2 hi2

/-- A trailing missing run (every sample after the last valid one at `p`)
is forward-filled with the last valid value. -/
theorem gapFill_trailing (xs : List (Option ℚ)) (i p : ℕ) (v : ℚ)
    (hpi : p < i) (hi : i < xs.length) (hv : xs.getD p none = some v)
    (hafter : ∀ j, j < xs.length → p < j → xs.getD j none = none) :
    (gapFill xs).getD i none = some v := by
  have h0 : xs.getD i none = none := hafter i hi hpi
  have hprev : prevValid xs i = some (p, v) :=
    prevValid_eq_some xs i p v hpi hv
      (fun j hj hpj => hafter j (lt_trans hj hi) hpj)
  have hnext : nextValid xs i = none :=
    nextValid_eq_none xs i (fun j hj hij => hafter j hj (lt_trans hpi hij))
  have h1 := interpolateL_trailing xs h0 hi hprev hnext
  have hi1 : i < (interpolateL xs).length := by rwa [interpolateL_length]
  have h2 := bfillL_getD_of_some _ h1 hi1
  have hi2 : i < (bfillL (interpolateL xs)).length := by rwa [bfillL_length]
  exact ffillL_getD_of_some _ h2 hi2

/-- Gap filling does not touch a series without missing samples. -/
theorem gapFill_map_some (l : List ℚ) : gapFill (l.map some) = l.map some := by
  apply List.ext_getElem
  · simp [gapFill_length]
  · intro i h1 h2
    have hlen : i < l.length := by simpa using h2
    have hi : i < (l.map some).length := by simpa using hlen
    have hv : (l.map some).getD i none = some l[i] := by
      rw [List.getD_eq_getElem?_getD]
      simp [List.getElem?_map, List.getElem?_eq_getElem hlen]
    have := gapFill_getD_of_some (l.map some) hv hi
    rw [List.getD_eq_getElem _ _ h1] at this
    rw [this]
    simp [List.getElem_map]

/-! ## Helper lemmas: the z-score stage -/

/-- A constant series has mean that constant and variance zero, so the NaN
z-scores (`0.0 / 0.0`) fail the `> z_thresh` comparison and nothing is
masked. -/
theorem zMaskVals_const (xs : List ℚ) (c : ℚ) (h : ∀ x ∈ xs, x = c) :
    zMaskVals xs = xs.map some := by
  rcases eq_or_ne xs [] with rfl | hne
  · rfl
  · have hrep : xs = List.replicate xs.length c := List.eq_replicate_of_mem h
    have hn : (0 : ℚ) < xs.length := by
      have := List.length_pos.mpr hne
      exact_mod_cast this
    have hmean : popMean xs = c := by
      rw [popMean]
      conv_lhs => rw [hrep]
      rw [List.sum_replicate, List.length_replicate, nsmul_eq_mul]
      exact mul_div_cancel_left₀ c (ne_of_gt hn)
    have hvar : popVar xs = 0 := by
      rw [popVar, hmean]
      have : (xs.map fun x => (x - c) ^ 2).sum = 0 := by
        apply List.sum_eq_zero
        intro y hy
        obtain ⟨x, hx, rfl⟩ := List.mem_map.mp hy
        rw [h x hx]
        ring
      rw [this, zero_div]
    simp [zMaskVals, hvar]

theorem injected_sum (k m : ℕ) :
    (injectedSeries k m).sum = 10 * k + 10000 + 10 * m := by
  simp [injectedSeries, List.sum_append, List.sum_replicate, nsmul_eq_mul]
  ring

theorem injected_length (k m : ℕ) : (injectedSeries k m).length = k + 1 + m := by
  simp [injectedSeries]
  omega

theorem injected_mean (k m : ℕ) :
    popMean (injectedSeries k m) =
      (10 * ((k : ℚ) + m) + 10000) / (((k : ℚ) + m) + 1) := by
  rw [popMean, injected_sum, injected_length]
  push_cast
  ring

theorem injected_var (k m : ℕ) :
    popVar (injectedSeries k m) =
      9990 ^ 2 * ((k : ℚ) + m) / (((k : ℚ) + m) + 1) ^ 2 := by
  have hS1 : (0 : ℚ) < ((k : ℚ) + m) + 1 := by positivity
  rw [popVar, injected_mean, injected_length]
  rw [show injectedSeries k m =
      List.replicate k (10 : ℚ) ++ 10000 :: List.replicate m 10 from rfl]
  rw [List.map_append, List.map_cons, List.map_replicate, List.map_replicate,
    List.sum_append, List.sum_cons, List.sum_replicate, List.sum_replicate,
    nsmul_eq_mul, nsmul_eq_mul]
  rw [div_eq_div_iff (by positivity) (by positivity)]
  push_cast
  field_simp
  ring

/-- For at least one leading and one trailing constant sample and total
length at least 11, the z-score stage masks exactly the injected sample:
its squared deviation `(9990 S / (S+1))^2` exceeds `9` times the variance
`9990^2 S / (S+1)^2` exactly when `S = k + m > 9`, while a constant
sample's `(9990 / (S+1))^2` never does. -/
theorem zMask_injected (k m : ℕ) (hk : 1 ≤ k) (hm : 1 ≤ m) (hs : 10 ≤ k + m) :
    zMaskVals (injectedSeries k m) =
      List.replicate k (some (10 : ℚ)) ++ none :: List.replicate m (some 10) := by
  have hS : (10 : ℚ) ≤ (k : ℚ) + m := by exact_mod_cast hs
  have hS0 : (0 : ℚ) < (k : ℚ) + m := by linarith
  have hS1 : (0 : ℚ) < ((k : ℚ) + m) + 1 := by linarith
  have hvar := injected_var k m
  have hmean := injected_mean k m
  have hvarne : popVar (injectedSeries k m) ≠ 0 := by
    rw [hvar]
    positivity
  have hdev10 : ((10 : ℚ) - popMean (injectedSeries k m)) ^ 2 =
      9990 ^ 2 / (((k : ℚ) + m) + 1) ^ 2 := by
    rw [hmean]
    field_simp
    ring
  have hdevinj : ((10000 : ℚ) - popMean (injectedSeries k m)) ^ 2 =
      9990 ^ 2 * ((k : ℚ) + m) ^ 2 / (((k : ℚ) + m) + 1) ^ 2 := by
    rw [hmean]
    field_simp
    ring
  have hP : (0 : ℚ) < (((k : ℚ) + m) + 1) ^ 2 := by positivity
  have h10 : ¬ (popVar (injectedSeries k m) ≠ 0 ∧
      ((10 : ℚ) - popMean (injectedSeries k m)) ^ 2 >
        z_thresh ^ 2 * popVar (injectedSeries k m)) := by
    rintro ⟨-, hgt⟩
    rw [hdev10, hvar, z_thresh, gt_iff_lt, ← mul_div_assoc,
      div_lt_div_iff₀ hP hP] at hgt
    nlinarith [hP, hS]
  have hinj : popVar (injectedSeries k m) ≠ 0 ∧
      ((10000 : ℚ) - popMean (injectedSeries k m)) ^ 2 >
        z_thresh ^ 2 * popVar (injectedSeries k m) := by
    refine ⟨hvarne, ?_⟩
    rw [hdevinj, hvar, z_thresh, gt_iff_lt, ← mul_div_assoc,
      div_lt_div_iff₀ hP hP]
    have h9S : (9 : ℚ) * ((k : ℚ) + m) < ((k : ℚ) + m) ^ 2 := by nlinarith [hS]
    have hpos : (0 : ℚ) < 9990 ^ 2 * (((k : ℚ) + m) + 1) ^ 2 := by positivity
    nlinarith [mul_lt_mul_of_pos_right h9S hpos]
  calc zMaskVals (injectedSeries k m)
      = (List.replicate k (10 : ℚ) ++ 10000 :: List.replicate m 10).map _ := rfl
    _ = List.replicate k (some (10 : ℚ)) ++ none :: List.replicate m (some 10) := by
        rw [List.map_append, List.map_cons, List.map_replicate, List.map_replicate]
        simp only [if_neg h10, if_pos hinj]

/-! ## Helper lemmas: the cleaning pipeline and reindexing -/

theorem savgol_filter_some (xs : List ℚ) (w po : ℕ) (sg : List ℚ)
    (h : savgol_filter xs w po = some sg) : sg.length = xs.length := by
  unfold savgol_filter at h
  split_ifs at h with hc
  · simp only [Option.some.injEq] at h
    rw [← h, savgolCore_length]

/-- The cleaned, smoothed series keeps exactly the index labels of the
selected (post-exclusion) series. -/
theorem cleanSeries_fst (m : Metric) (df : List Row) (s : List (ℕ × ℚ))
    (h : cleanSeries m df = some s) :
    s.map Prod.fst = (selectSeries m df).map Prod.fst := by
  unfold cleanSeries at h
  rw [Option.map_eq_some'] at h
  obtain ⟨sg, hsg, hs⟩ := h
  have hlen := savgol_filter_some _ _ _ _ hsg
  rw [unNaN_length, gapFill_length, zMaskVals_length, List.length_map] at hlen
  subst hs
  apply List.map_fst_zip
  rw [List.length_map]
  split_ifs
  · rw [rollingMean_length, hlen]
  · rw [hlen]

theorem reindex_getD (n : ℕ) (s : List (ℕ × ℚ)) {i : ℕ} (h : i < n) :
    (reindex n s).getD i none = (s.find? fun p => p.1 == i).map Prod.snd := by
  rw [reindex]
  exact getD_range_map _ _ h

theorem find_label_isSome (s : List (ℕ × ℚ)) (i : ℕ) :
    ((s.find? fun p => p.1 == i).map Prod.snd).isSome = true ↔ i ∈ s.map Prod.fst := by
  have h1 : ((s.find? fun p => p.1 == i).map Prod.snd).isSome
      = (s.find? fun p => p.1 == i).isSome := by
    cases s.find? fun p => p.1 == i <;> rfl
  rw [h1, List.find?_isSome]
  simp only [List.mem_map, beq_iff_eq]

/-- For the plain metrics (no pre-filter) the selected series carries every
row position. -/
theorem selectSeries_fst_full (m : Metric) (df : List Row)
    (hm : isCentroidMetric m = false) :
    (selectSeries m df).map Prod.fst = List.range df.length := by
  unfold selectSeries
  rw [hm]
  simp only [Bool.false_eq_true, if_false, List.map_map]
  have : (Prod.fst ∘ fun p : ℕ × Row => (p.1, p.2.getMetric m)) = Prod.fst := by
    funext p
    rfl
  rw [this]
  exact List.map_fst_zip _ _ (by simp)

/-! ## Helper lemmas: the tracker -/

theorem foldl_max_mem (cs : List ContourMeasures) (b : ContourMeasures) :
    cs.foldl (fun best x => if best.area < x.area then x else best) b ∈ b :: cs := by
  induction cs generalizing b with
  | nil => simp
  | cons x rest ih =>
      have step := ih (if b.area < x.area then x else b)
      rw [List.foldl_cons]
      rcases List.mem_cons.mp step with h | h
      · rw [h]
        split_ifs
        · exact List.mem_cons_of_mem _ (List.mem_cons_self _ _)
        · exact List.mem_cons_self _ _
      · exact List.mem_cons_of_mem _ (List.mem_cons_of_mem _ h)

theorem maxByArea_mem (cs : List ContourMeasures) (c : ContourMeasures)
    (h : maxByArea cs = some c) : c ∈ cs := by
  cases cs with
  | nil => simp [maxByArea] at h
  | cons x rest =>
      simp only [maxByArea, Option.some.injEq] at h
      rw [← h]
      exact foldl_max_mem rest x

/-- Full characterisation of one call of `process_frame`, given that every
contour's bounding box has nonzero height (true of every real cv2 contour
of positive area). -/
theorem process_frame_spec (cs : List ContourMeasures) (ts : ℚ)
    (hh : ∀ c ∈ cs, c.h ≠ 0) :
    ∃ rec ann, process_frame cs ts = some (rec, ann) ∧
      (rec.isSome = true ↔ ∃ cnt, maxByArea cs = some cnt ∧ min_area ≤ cnt.area) ∧
      ann = rec.isSome ∧
      (∀ r, rec = some r → r.timestamp = ts) := by
  cases hmax : maxByArea cs with
  | none =>
      refine ⟨none, false, ?_, ?_, rfl, ?_⟩
      · simp [process_frame, hmax]
      · simp
      · intro r hr
        simp at hr
  | some cnt =>
      by_cases harea : cnt.area < min_area
      · refine ⟨none, false, ?_, ?_, rfl, ?_⟩
        · simp [process_frame, hmax, harea]
        · simp only [Option.isSome_none, Bool.false_eq_true, false_iff]
          rintro ⟨cnt', hcnt', hle⟩
          rw [Option.some.injEq] at hcnt'
          subst hcnt'
          exact absurd hle (not_le.mpr harea)
        · intro r hr
          simp at hr
      · have hne : cnt.h ≠ 0 := hh cnt (maxByArea_mem cs cnt hmax)
        refine ⟨some ((mkRecord ts cnt).getD
          { timestamp := ts, area := 0, perimeter := 0, centroid_x := 0,
            centroid_y := 0, aspect_ratio_val := 0, shape_factor := 0,
            solidity := 0, extent := 0, eccentricity := 0 }), true, ?_, ?_, rfl, ?_⟩
        · simp [process_frame, hmax, harea, mkRecord, aspect_ratio_of, hne]
        · simp only [Option.isSome_some, true_iff]
          exact ⟨cnt, rfl, not_lt.mp harea⟩
        · intro r hr
          simp only [Option.some.injEq] at hr
          rw [← hr]
          simp [mkRecord, aspect_ratio_of, hne]

/-- The frame loop succeeds and produces records from a strictly increasing
subsequence of frame indices, each timestamped by its frame index. -/
theorem runTracker_spec (start : ℚ) (tf : ℕ) (frames : List (List ContourMeasures)) :
    ∀ i : ℕ, (∀ cs ∈ frames, ∀ c ∈ cs, c.h ≠ 0) →
      ∃ recs idxs, runTracker start tf i frames = some recs ∧
        idxs.Pairwise (· < ·) ∧ (∀ j ∈ idxs, i ≤ j) ∧
        List.Forall₂ (fun j r => MetricRecord.timestamp r = frameTs start tf j)
          idxs recs := by
  induction frames with
  | nil =>
      intro i _
      exact ⟨[], [], rfl, List.Pairwise.nil, by simp, List.Forall₂.nil⟩
  | cons cs rest ih =>
      intro i hh
      have hhcs : ∀ c ∈ cs, c.h ≠ 0 := hh cs (List.mem_cons_self _ _)
      have hhrest : ∀ cs' ∈ rest, ∀ c ∈ cs', c.h ≠ 0 :=
        fun cs' h' => hh cs' (List.mem_cons_of_mem _ h')
      obtain ⟨recs, idxs, hrun, hpw, hlow, hf2⟩ := ih (i + 1) hhrest
      obtain ⟨rec, ann, heq, -, -, hts⟩ :=
        process_frame_spec cs (frameTs start tf i) hhcs
      have hskip : ¬ (i % frame_skip ≠ 0) := by simp [frame_skip, Nat.mod_one]
      cases rec with
      | none =>
          refine ⟨recs, idxs, ?_, hpw, fun j hj => le_trans (Nat.le_succ i) (hlow j hj), hf2⟩
          rw [runTracker, if_neg hskip, heq]
          exact hrun
      | some r =>
          refine ⟨r :: recs, i :: idxs, ?_, ?_, ?_, ?_⟩
          · rw [runTracker, if_neg hskip, heq, hrun]
            rfl
          · exact List.pairwise_cons.mpr
              ⟨fun j hj => lt_of_lt_of_le (Nat.lt_succ_self i) (hlow j hj), hpw⟩
          · intro j hj
            rcases List.mem_cons.mp hj with rfl | hj'
            · exact le_refl j
            · exact le_trans (Nat.le_succ i) (hlow j hj')
          · exact List.Forall₂.cons (hts r rfl) hf2

/-- Records paired with indices through a functional relation are the map of
that function. -/
theorem forall₂_map_eq (f : ℕ → ℚ) :
    ∀ (idxs : List ℕ) (recs : List MetricRecord),
      List.Forall₂ (fun j r => MetricRecord.timestamp r = f j) idxs recs →
      recs.map MetricRecord.timestamp = idxs.map f := by
  intro idxs recs h
  induction h with
  | nil => rfl
  | cons hjr _ ih => simp [ih, hjr]

/-! ## Helper lemmas: truncation toward zero -/

/-- Python `int()` truncation: magnitude at most the argument's, within one
of it, and never of opposite sign. -/
theorem pyInt_spec (q : ℚ) :
    |(pyInt q : ℚ)| ≤ |q| ∧ |q| < |(pyInt q : ℚ)| + 1 ∧ 0 ≤ (pyInt q : ℚ) * q := by
  unfold pyInt
  by_cases hq : q < 0
  · rw [if_pos hq]
    have h1 : q ≤ (⌈q⌉ : ℚ) := Int.le_ceil q
    have h2 : (⌈q⌉ : ℚ) ≤ 0 := by
      have : ⌈q⌉ ≤ (0 : ℤ) := Int.ceil_le.mpr (by exact_mod_cast hq.le)
      exact_mod_cast this
    have h3 : (⌈q⌉ : ℚ) < q + 1 := Int.ceil_lt_add_one q
    refine ⟨?_, ?_, ?_⟩
    · rw [abs_of_nonpos h2, abs_of_neg hq]
      linarith
    · rw [abs_of_nonpos h2, abs_of_neg hq]
      linarith
    · nlinarith [h1, h2, hq.le]
  · push_neg at hq
    rw [if_neg (not_lt.mpr hq)]
    have h1 : (⌊q⌋ : ℚ) ≤ q := Int.floor_le q
    have h2 : (0 : ℚ) ≤ (⌊q⌋ : ℚ) := by
      have : (0 : ℤ) ≤ ⌊q⌋ := Int.floor_nonneg.mpr hq
      exact_mod_cast this
    have h3 : q < (⌊q⌋ : ℚ) + 1 := Int.lt_floor_add_one q
    refine ⟨?_, ?_, ?_⟩
    · rw [abs_of_nonneg h2, abs_of_nonneg hq]
      exact h1
    · rw [abs_of_nonneg h2, abs_of_nonneg hq]
      exact h3
    · exact mul_nonneg h2 hq

/-! ## Helper lemmas: small concrete evaluations

Rational arithmetic cannot be evaluated by kernel reduction (`Nat.gcd` in
`Rat` normalisation is well-founded), so the concrete pipeline runs below
are assembled from the stage lemmas instead of one big `decide`. -/

theorem popMean_singleton (x : ℚ) : popMean [x] = x := by
  simp [popMean]

theorem drop_take_one (xs : List ℚ) (i : ℕ) (h : i < xs.length) :
    (xs.drop i).take 1 = [xs[i]] := by
  rw [List.drop_eq_getElem_cons h]
  rfl

/-- A Savitzky-Golay filter with window 1 and degree 0 fits a constant to
each single sample and so returns the series unchanged. -/
theorem savgolCore_win_one (xs : List ℚ) : savgolCore 1 0 xs = xs := by
  apply List.ext_getElem
  · simp [savgolCore]
  intro i h1 h2
  have hi : i < xs.length := h2
  simp only [savgolCore, List.getElem_map, List.getElem_range]
  rw [if_neg (by omega : ¬ i < 1 / 2), if_neg (by omega : ¬ xs.length - 1 / 2 ≤ i)]
  norm_num
  rw [drop_take_one xs i hi]
  simp [polyfitEval, polyfitCoeffs, gaussAux, pivotRow, normalRow, elimWith,
    dotL, powersTo, polyEval, List.range_succ, List.range_zero]

theorem rollingMean50_singleton (x : ℚ) : rollingMean 50 [x] = [x] := by
  simp only [rollingMean, popMean, List.length_cons, List.length_nil,
    show List.range 1 = [0] from rfl, List.map_cons, List.map_nil]
  norm_num

/-- The centroid exclusion filter drops the first row of `exDf` and keeps
the second. -/
theorem selectSeries_exDf :
    selectSeries Metric.centroid_x exDf = [(1, (700 : ℚ))] := by decide

theorem reindex_exDf : reindex 2 [(1, (700 : ℚ))] = [none, some 700] := by decide

/-- The cleaning pipeline on the two-row frame `exDf`, run for `centroid_x`:
the excluded first row resurfaces as a missing value after reindexing. -/
theorem cleanMetric_exDf :
    cleanMetric Metric.centroid_x exDf = some [none, some 700] := by
  have h2 : zMaskVals [(700 : ℚ)] = [some 700] := by
    simpa using zMaskVals_const [(700 : ℚ)] 700 (by simp)
  have h3 : gapFill [some (700 : ℚ)] = [some 700] := by
    simpa using gapFill_map_some [700]
  rw [cleanMetric, cleanSeries, selectSeries_exDf]
  simp only [List.map_cons, List.map_nil, h2, h3, unNaN, Option.getD_some,
    List.length_cons, List.length_nil]
  norm_num [winOf, window_length, polyOrderOf, poly_order, savgol_filter,
    savgolCore_win_one, APPLY_ROLLING, ROLLING_WINDOW, rollingMean50_singleton]
  exact reindex_exDf

/-- At series length 5 the injected sample's squared deviation `7992^2`
does not exceed `9` times the variance `1998^2 * 4`, so it is kept. -/
theorem zMask_inj22_keeps :
    (zMaskVals (injectedSeries 2 2)).getD 2 none = some 10000 := by
  have hm : popMean (injectedSeries 2 2) = 2008 := by
    rw [injected_mean]
    norm_num
  have hv : popVar (injectedSeries 2 2) = 15968016 := by
    rw [injected_var]
    norm_num
  have hcond : ¬ (popVar (injectedSeries 2 2) ≠ 0 ∧
      ((10000 : ℚ) - popMean (injectedSeries 2 2)) ^ 2 >
        z_thresh ^ 2 * popVar (injectedSeries 2 2)) := by
    rw [hm, hv, z_thresh]
    push_neg
    intro _
    norm_num
  have hx : (injectedSeries 2 2)[2]? = some 10000 := rfl
  rw [zMaskVals, List.getD_eq_getElem?_getD, List.getElem?_map, hx,
    Option.map_some', Option.getD_some]
  exact if_neg hcond

/-- The spec's gap-filling example, assembled from the stage lemmas. -/
theorem gapFill_example :
    gapFill [some 1, none, none, some (4 : ℚ)] = [some 1, some 2, some 3, some 4] := by
  apply List.ext_getElem
  · simp [gapFill_length]
  intro i h1 h2
  rw [← List.getD_eq_getElem (gapFill _) none h1]
  have h4 : i < 4 := by simpa using h2
  interval_cases i
  · rw [gapFill_getD_of_some _
      (show ([some (1 : ℚ), none, none, some 4]).getD 0 none = some 1 from rfl)
      (by norm_num)]
    rfl
  · rw [gapFill_interior [some (1 : ℚ), none, none, some 4] 1 0 3 1 4 (by norm_num) (by norm_num) (by norm_num)
      rfl rfl (by decide)]
    simp
    norm_num
  · rw [gapFill_interior [some (1 : ℚ), none, none, some 4] 2 0 3 1 4 (by norm_num) (by norm_num) (by norm_num)
      rfl rfl (by decide)]
    simp
    norm_num
  · rw [gapFill_getD_of_some _
      (show ([some (1 : ℚ), none, none, some 4]).getD 3 none = some 4 from rfl)
      (by norm_num)]
    rfl

/-! ## Helper lemmas: the gap-filled series has no missing sample

These justify the `unNaN` embedding of the float-array conversion: the
z-score mask always keeps at least one sample, and gap filling then fills
every position, so the `getD` default in `unNaN` is never read. -/

theorem lastValidIn_isSome (l : List (Option ℚ)) (j : ℕ) (hj : j < l.length)
    (hv : l.getD j none ≠ none) : (lastValidIn l).isSome = true := by
  induction l generalizing j with
  | nil => simp at hj
  | cons x rest ih =>
      cases hrest : lastValidIn rest with
      | some p => simp [lastValidIn, hrest]
      | none =>
          cases j with
          | zero =>
              rw [List.getD_cons_zero] at hv
              cases x with
              | none => exact absurd rfl hv
              | some v => simp [lastValidIn, hrest]
          | succ j' =>
              rw [List.getD_cons_succ] at hv
              have := ih j' (by simpa using Nat.lt_of_succ_lt_succ hj) hv
              rw [hrest] at this
              simp at this

theorem firstValidIn_isSome (l : List (Option ℚ)) (j : ℕ) (hj : j < l.length)
    (hv : l.getD j none ≠ none) : (firstValidIn l).isSome = true := by
  induction l generalizing j with
  | nil => simp at hj
  | cons x rest ih =>
      cases x with
      | some v => simp [firstValidIn]
      | none =>
          cases j with
          | zero =>
              rw [List.getD_cons_zero] at hv
              exact absurd rfl hv
          | succ j' =>
              rw [List.getD_cons_succ] at hv
              have := ih j' (by simpa using Nat.lt_of_succ_lt_succ hj) hv
              rw [Option.isSome_iff_exists] at this
              obtain ⟨p, hp⟩ := this
              simp [firstValidIn, hp]

theorem prevValid_isSome (xs : List (Option ℚ)) (i j : ℕ) (hji : j < i)
    (hjl : j < xs.length) (hv : xs.getD j none ≠ none) :
    (prevValid xs i).isSome = true := by
  apply lastValidIn_isSome _ j
  · simp [List.length_take]
    omega
  · rwa [getD_take xs hji]

theorem nextValid_isSome (xs : List (Option ℚ)) (i j : ℕ) (hij : i < j)
    (hjl : j < xs.length) (hv : xs.getD j none ≠ none) :
    (nextValid xs i).isSome = true := by
  rw [nextValid]
  have h1 : (firstValidIn (xs.drop (i + 1))).isSome = true := by
    apply firstValidIn_isSome _ (j - (i + 1))
    · rw [List.length_drop]
      omega
    · rw [getD_drop]
      have : i + 1 + (j - (i + 1)) = j := by omega
      rwa [this]
  rw [Option.isSome_iff_exists] at h1 ⊢
  obtain ⟨p, hp⟩ := h1
  exact ⟨_, by rw [hp]; rfl⟩

/-- The z-score mask keeps at least one sample of a non-empty series: were
every squared deviation above `z_thresh^2` times the variance, their sum —
which is the length times the variance — would exceed itself. -/
theorem zMaskVals_exists_some (xs : List ℚ) (hne : xs ≠ []) :
    ∃ j, j < xs.length ∧ (zMaskVals xs).getD j none ≠ none := by
  obtain ⟨x0, rest, rfl⟩ := List.exists_cons_of_ne_nil hne
  by_cases hvar : popVar (x0 :: rest) = 0
  · refine ⟨0, by simp, ?_⟩
    simp [zMaskVals, hvar]
  · by_contra hall
    push_neg at hall
    set xs := x0 :: rest with hxs
    have hn : (0 : ℚ) < (xs.length : ℚ) := by
      rw [hxs]
      exact_mod_cast Nat.succ_pos rest.length
    have hmasked : ∀ x ∈ xs, (x - popMean xs) ^ 2 > z_thresh ^ 2 * popVar xs := by
      intro x hx
      obtain ⟨i, hi, hix⟩ := List.mem_iff_getElem.mp hx
      have h1 := hall i (by simpa using hi)
      rw [zMaskVals, List.getD_eq_getElem?_getD, List.getElem?_map,
        List.getElem?_eq_getElem hi, Option.map_some', Option.getD_some] at h1
      rw [← hix]
      by_contra hno
      rw [if_neg (fun hc => hno hc.2)] at h1
      simp at h1
    have hsum : ((xs.map fun x => (x - popMean xs) ^ 2).sum) = popVar xs * xs.length := by
      rw [popVar]
      field_simp
    have hlt : ((xs.map fun _ => z_thresh ^ 2 * popVar xs).sum) <
        ((xs.map fun x => (x - popMean xs) ^ 2).sum) := by
      apply List.sum_lt_sum
      · intro x hx
        exact le_of_lt (hmasked x hx)
      · exact ⟨x0, by simp [hxs], hmasked x0 (by simp [hxs])⟩
    have hconst : ((xs.map fun _ => z_thresh ^ 2 * popVar xs).sum) =
        (xs.length : ℚ) * (z_thresh ^ 2 * popVar xs) := by
      rw [List.map_const', List.sum_replicate, nsmul_eq_mul]
    have hnn : 0 ≤ ((xs.map fun x => (x - popMean xs) ^ 2).sum) :=
      List.sum_nonneg fun y hy => by
        obtain ⟨x, -, rfl⟩ := List.mem_map.mp hy
        positivity
    have hvnn : 0 ≤ popVar xs := by
      rw [popVar]
      exact div_nonneg hnn hn.le
    have hvpos : 0 < popVar xs := lt_of_le_of_ne hvnn (Ne.symm hvar)
    rw [hconst, hsum, z_thresh] at hlt
    nlinarith [hlt, hvpos, hn]

/-- After the mask of a non-empty series, gap filling leaves no missing
sample, so the conversion to a float array reads no default. -/
theorem gapFill_all_isSome (xs : List (Option ℚ))
    (h : ∃ j, j < xs.length ∧ xs.getD j none ≠ none) :
    ∀ i, i < xs.length → (gapFill xs).getD i none ≠ none := by
  obtain ⟨j, hjl, hjv⟩ := h
  intro i hi
  cases hx : xs.getD i none with
  | some v =>
      rw [gapFill_getD_of_some xs hx hi]
      simp
  | none =>
      have hij : j ≠ i := fun hc => hjv (hc ▸ hx)
      by_cases hprev : (prevValid xs i).isSome = true
      · rw [Option.isSome_iff_exists] at hprev
        obtain ⟨p, hp⟩ := hprev
        have hlen1 : i < (interpolateL xs).length := by rwa [interpolateL_length]
        have hlen2 : i < (bfillL (interpolateL xs)).length := by rwa [bfillL_length]
        cases hnext : nextValid xs i with
        | some q =>
            have h1 := interpolateL_interior xs hx hi hp hnext
            rw [gapFill, ffillL_getD_of_some _ (bfillL_getD_of_some _ h1 hlen1) hlen2]
            simp
        | none =>
            have h1 := interpolateL_trailing xs hx hi hp hnext
            rw [gapFill, ffillL_getD_of_some _ (bfillL_getD_of_some _ h1 hlen1) hlen2]
            simp
      · have hji : i < j := by
          rcases Nat.lt_or_ge i j with hlt | hge
          · exact hlt
          · exfalso
            have hj_lt_i : j < i := lt_of_le_of_ne hge hij
            exact absurd (prevValid_isSome xs i j hj_lt_i hjl hjv) hprev
        have hpnone : prevValid xs i = none := by
          cases hp : prevValid xs i with
          | none => rfl
          | some p => rw [hp] at hprev; simp at hprev
        have h1 := interpolateL_leading xs hx hi hpnone
        obtain ⟨w, hw⟩ := Option.ne_none_iff_exists'.mp hjv
        have hjint : (interpolateL xs).getD j none = some w :=
          interpolateL_getD_of_some xs hw hjl
        have hjint' : (interpolateL xs).getD j none ≠ none := by
          rw [hjint]
          simp
        have hjl' : j < (interpolateL xs).length := by rwa [interpolateL_length]
        have hnext : (nextValid (interpolateL xs) i).isSome = true :=
          nextValid_isSome (interpolateL xs) i j hji hjl' hjint'
        rw [Option.isSome_iff_exists] at hnext
        obtain ⟨q, hq⟩ := hnext
        have hlen1 : i < (interpolateL xs).length := by rwa [interpolateL_length]
        have hlen2 : i < (bfillL (interpolateL xs)).length := by rwa [bfillL_length]
        have h2 : (bfillL (interpolateL xs)).getD i none = some q.2 := by
          rw [bfillL_getD_of_none _ h1 hlen1, hq]
          rfl
        rw [gapFill, ffillL_getD_of_some _ h2 hlen2]
        simp

/-! ## The claims -/

/-- C1, counterexample: on a two-row frame whose first row lies in the
centroid exclusion region (both coordinates below 650), the cleaned
`centroid_x` series reindexed onto the full original index has a missing
value at index 0 — the exclusion drops the row before cleaning and
`reindex` restores its label as NaN — refuting "contains no missing value
at any index". -/
theorem cleaning_no_missing_refuted :
    cleanMetric Metric.centroid_x exDf = some [none, some 700] :=
  cleanMetric_exDf

/-- C1, amended: whenever the cleaning pipeline completes (the smoothing
window fits the post-exclusion series), the reindexed output has the same
length, hence the same time index, as the original per-metric series, and
an index carries a value exactly when the centroid pre-filter kept its
row; for the `area` and `solidity` metrics every index is kept, so no
value is missing anywhere. -/
theorem cleaned_series_alignment (m : Metric) (df : List Row)
    (out : List (Option ℚ)) (h : cleanMetric m df = some out) :
    out.length = df.length ∧
    (∀ i, i < df.length →
      ((out.getD i none).isSome = true ↔ i ∈ (selectSeries m df).map Prod.fst)) ∧
    ((m = Metric.area ∨ m = Metric.solidity) →
      (selectSeries m df).map Prod.fst = List.range df.length) := by
  unfold cleanMetric at h
  rw [Option.map_eq_some'] at h
  obtain ⟨s, hs, rfl⟩ := h
  refine ⟨reindex_length _ _, ?_, ?_⟩
  · intro i hi
    rw [reindex_getD _ _ hi, find_label_isSome, cleanSeries_fst m df s hs]
  · rintro (rfl | rfl) <;> exact selectSeries_fst_full _ df rfl

/-- C1, witness: the amended statement instantiated on the two-row frame
`exDf`, whose cleaned `centroid_x` output is `[none, some 700]`. -/
theorem cleaned_series_alignment_witness :
    ([none, some (700 : ℚ)] : List (Option ℚ)).length = exDf.length ∧
    (∀ i, i < exDf.length →
      ((([none, some (700 : ℚ)] : List (Option ℚ)).getD i none).isSome = true ↔
        i ∈ (selectSeries Metric.centroid_x exDf).map Prod.fst)) ∧
    ((Metric.centroid_x = Metric.area ∨ Metric.centroid_x = Metric.solidity) →
      (selectSeries Metric.centroid_x exDf).map Prod.fst =
        List.range exDf.length) :=
  cleaned_series_alignment Metric.centroid_x exDf [none, some 700] cleanMetric_exDf

/-- C2, counterexample: at bounding-box height `h = 0` the code's
`aspect_ratio = w / h` raises a division error (embedded `none`); it does
not produce the claimed fallback value `some 0`. -/
theorem aspect_ratio_zero_height_raises : aspect_ratio_of 3 0 = none := rfl

/-- C2, amended: the four guarded divisions (shape factor, solidity,
extent, eccentricity) fall back to 0 on degenerate geometry, but
`aspect_ratio` is unguarded: at `h = 0` it raises a division error rather
than yielding 0. -/
theorem degenerate_division_fallbacks (area perimeter hull_area : ℚ) (w h : ℕ) :
    (perimeter = 0 → shape_factor_of area perimeter = 0) ∧
    (hull_area = 0 → solidity_of area hull_area = 0) ∧
    (w * h = 0 → extent_of area w h = 0) ∧
    (max w h = 0 → eccentricity_of w h = 0) ∧
    (h = 0 → aspect_ratio_of w h = none) := by
  refine ⟨?_, ?_, ?_, ?_, ?_⟩ <;> intro h0
  · simp [shape_factor_of, h0]
  · simp [solidity_of, h0]
  · simp [extent_of, h0]
  · simp [eccentricity_of, h0]
  · simp [aspect_ratio_of, h0]

/-- C3, the window computation evaluated at the failing inputs: for a
series of length 11 (or more) the chosen Savitzky-Golay window is the even
`window_length = 10`, although the code's own comment says the window must
be odd; and for series lengths 2 and 4 the round-up `n | 1` produces a
window larger than the series, on which scipy's `savgol_filter`
(`mode='interp'`) raises. -/
theorem window_choice_failing_inputs :
    winOf 11 = 10 ∧ winOf 11 % 2 = 0 ∧ winOf 2 = 3 ∧ winOf 4 = 5 ∧
    polyOrderOf (winOf 11) = 7 := by decide

/-- C4, counterexample: in the length-5 series `[10, 10, 10000, 10, 10]`
the injected sample's standardized deviation is `sqrt(n-1) = 2 < 3`, so
the outlier stage keeps it — the claim fails for short series. -/
theorem outlier_short_series_not_masked :
    (zMaskVals (injectedSeries 2 2)).getD 2 none = some 10000 :=
  zMask_inj22_keeps

/-- C4, amended: for a constant-10 series with one injected 10000 at an
interior position (`k` samples before, `m` after, so it has two
neighbours) and total length at least 11 (`k + m >= 10`), the z-score
stage masks exactly the injected sample, and interpolation replaces it
with 10 — a value between the minimum and maximum of its two neighbours. -/
theorem outlier_mask_and_interpolation (k m : ℕ) (hk : 1 ≤ k) (hm : 1 ≤ m)
    (hs : 10 ≤ k + m) :
    zMaskVals (injectedSeries k m) =
      List.replicate k (some (10 : ℚ)) ++ none :: List.replicate m (some 10) ∧
    (gapFill (zMaskVals (injectedSeries k m))).getD k none = some 10 ∧
    min ((injectedSeries k m).getD (k - 1) 0) ((injectedSeries k m).getD (k + 1) 0) ≤ 10 ∧
    10 ≤ max ((injectedSeries k m).getD (k - 1) 0) ((injectedSeries k m).getD (k + 1) 0) := by
  have hmask := zMask_injected k m hk hm hs
  have hklt : k - 1 < k := by omega
  have hnotlt : ¬ (k + 1 < k) := by omega
  have hsub : k + 1 - k = 1 := by omega
  have hm0 : 0 < m := hm
  have hrepr : injectedSeries k m =
      List.replicate k (10 : ℚ) ++ 10000 :: List.replicate m 10 := rfl
  have hnb1 : (injectedSeries k m).getD (k - 1) 0 = 10 := by
    rw [hrepr]
    simp only [List.getD_eq_getElem?_getD, List.getElem?_append, List.length_replicate,
      List.getElem?_replicate]
    simp [hklt]
  have hnb2 : (injectedSeries k m).getD (k + 1) 0 = 10 := by
    rw [hrepr]
    simp only [List.getD_eq_getElem?_getD, List.getElem?_append, List.length_replicate,
      List.getElem?_replicate]
    simp [hnotlt, hsub, hm0]
  have hfill : (gapFill (zMaskVals (injectedSeries k m))).getD k none = some 10 := by
    rw [hmask]
    have hxp : (List.replicate k (some (10 : ℚ)) ++
        none :: List.replicate m (some 10)).getD (k - 1) none = some 10 := by
      simp only [List.getD_eq_getElem?_getD, List.getElem?_append, List.length_replicate,
        List.getElem?_replicate]
      simp [hklt]
    have hxq : (List.replicate k (some (10 : ℚ)) ++
        none :: List.replicate m (some 10)).getD (k + 1) none = some 10 := by
      simp only [List.getD_eq_getElem?_getD, List.getElem?_append, List.length_replicate,
        List.getElem?_replicate]
      simp [hnotlt, hsub, hm0]
    have hgap : ∀ j, j < k + 1 → k - 1 < j →
        (List.replicate k (some (10 : ℚ)) ++
          none :: List.replicate m (some 10)).getD j none = none := by
      intro j hj1 hj2
      have hjk : j = k := by omega
      subst hjk
      simp only [List.getD_eq_getElem?_getD, List.getElem?_append, List.length_replicate]
      simp
    have hqlen : k + 1 < (List.replicate k (some (10 : ℚ)) ++
        none :: List.replicate m (some 10)).length := by
      simp
      omega
    have := gapFill_interior
      (List.replicate k (some (10 : ℚ)) ++ none :: List.replicate m (some 10))
      k (k - 1) (k + 1) 10 10 hklt (by omega) hqlen hxp hxq hgap
    rw [this]
    norm_num
  exact ⟨hmask, hfill, by rw [hnb1, hnb2]; norm_num, by rw [hnb1, hnb2]; norm_num⟩

/-- C4, witness: the amended statement at `k = m = 5` (series length 11). -/
theorem outlier_mask_and_interpolation_witness :
    zMaskVals (injectedSeries 5 5) =
      List.replicate 5 (some (10 : ℚ)) ++ none :: List.replicate 5 (some 10) ∧
    (gapFill (zMaskVals (injectedSeries 5 5))).getD 5 none = some 10 ∧
    min ((injectedSeries 5 5).getD (5 - 1) 0) ((injectedSeries 5 5).getD (5 + 1) 0) ≤ 10 ∧
    10 ≤ max ((injectedSeries 5 5).getD (5 - 1) 0) ((injectedSeries 5 5).getD (5 + 1) 0) :=
  outlier_mask_and_interpolation 5 5 (by norm_num) (by norm_num) (by norm_num)

/-- C5, counterexample: for moments `m00 = 2000`, `m10 = 4001000` the true
normalized first moment is `2000.5`, but the recorded centroid is the
Python `int()` truncation `2000`: adding back the lost `1/2` recovers the
ratio, so the recorded value does not equal `m10 / m00`. -/
theorem centroid_not_exact_ratio :
    (centroid_x_of 2000 4001000 : ℚ) + 1 / 2 = 4001000 / 2000 := by
  have hfl : centroid_x_of 2000 4001000 = 2000 := by
    rw [centroid_x_of, if_pos (by norm_num), pyInt, if_neg (by norm_num)]
    rw [Int.floor_eq_iff]
    constructor <;> norm_num
  rw [hfl]
  norm_num

/-- C5, amended: the recorded centroid is the truncation toward zero of
the moment ratio — within one of it, never exceeding it in magnitude,
never of opposite sign — with the fallback `(0, 0)` taken exactly on the
`m00 = 0` branch. -/
theorem centroid_truncated_moments (m00 m10 m01 : ℚ) :
    (m00 = 0 → centroid_x_of m00 m10 = 0 ∧ centroid_y_of m00 m01 = 0) ∧
    (m00 ≠ 0 →
      |(centroid_x_of m00 m10 : ℚ)| ≤ |m10 / m00| ∧
      |m10 / m00| < |(centroid_x_of m00 m10 : ℚ)| + 1 ∧
      0 ≤ (centroid_x_of m00 m10 : ℚ) * (m10 / m00) ∧
      |(centroid_y_of m00 m01 : ℚ)| ≤ |m01 / m00| ∧
      |m01 / m00| < |(centroid_y_of m00 m01 : ℚ)| + 1 ∧
      0 ≤ (centroid_y_of m00 m01 : ℚ) * (m01 / m00)) := by
  constructor
  · intro h0
    subst h0
    simp [centroid_x_of, centroid_y_of]
  · intro hne
    rw [centroid_x_of, centroid_y_of, if_pos hne, if_pos hne]
    obtain ⟨hx1, hx2, hx3⟩ := pyInt_spec (m10 / m00)
    obtain ⟨hy1, hy2, hy3⟩ := pyInt_spec (m01 / m00)
    exact ⟨hx1, hx2, hx3, hy1, hy2, hy3⟩

/-- C6: given that every contour's bounding box has nonzero height (true of
any cv2 contour of positive area, hence of any contour that can pass
`min_area`), a frame produces a record exactly when the contour list is
non-empty and its maximum-area contour reaches `min_area`; the overlay is
drawn on the frame exactly when a record is produced, so a skipped frame
is passed through unmodified. -/
theorem record_iff_detection (cs : List ContourMeasures) (ts : ℚ)
    (hh : ∀ c ∈ cs, c.h ≠ 0) :
    ∃ rec ann, process_frame cs ts = some (rec, ann) ∧
      (rec.isSome = true ↔ ∃ cnt, maxByArea cs = some cnt ∧ min_area ≤ cnt.area) ∧
      ann = rec.isSome := by
  obtain ⟨rec, ann, h1, h2, h3, -⟩ := process_frame_spec cs ts hh
  exact ⟨rec, ann, h1, h2, h3⟩

/-- C6, witness: a singleton contour list passing the filter. -/
theorem record_iff_detection_witness :
    ∃ rec ann, process_frame [sampleContour] 5 = some (rec, ann) ∧
      (rec.isSome = true ↔
        ∃ cnt, maxByArea [sampleContour] = some cnt ∧ min_area ≤ cnt.area) ∧
      ann = rec.isSome :=
  record_iff_detection [sampleContour] 5 (by decide)

/-- C7: under cv2's geometric guarantees — a contour area is non-negative
and never exceeds the area of its convex hull — the recorded solidity
`area / hull_area` lies in `[0, 1]` whenever the hull area is positive. -/
theorem solidity_unit_interval (area hull_area : ℚ) (h0 : 0 ≤ area)
    (h1 : area ≤ hull_area) (h2 : 0 < hull_area) :
    0 ≤ solidity_of area hull_area ∧ solidity_of area hull_area ≤ 1 := by
  rw [solidity_of, if_pos (ne_of_gt h2)]
  exact ⟨div_nonneg h0 h2.le, div_le_one_of_le₀ h1 h2.le⟩

/-- C7, witness: a concrete contour with area 3 and hull area 4. -/
theorem solidity_unit_interval_witness :
    0 ≤ solidity_of 3 4 ∧ solidity_of 3 4 ≤ 1 :=
  solidity_unit_interval 3 4 (by norm_num) (by norm_num) (by norm_num)

/-- C8: the gap-filling stage — on the spec's example `[1, NaN, NaN, 4]` it
yields exactly `[1, 2, 3, 4]`; in general an interior missing sample
between nearest valid samples at `p < i < q` is linearly interpolated, a
leading missing run is back-filled with the first valid value, and a
trailing missing run is forward-filled with the last valid value. -/
theorem gap_filling_spec :
    (gapFill [some 1, none, none, some (4 : ℚ)] = [some 1, some 2, some 3, some 4]) ∧
    (∀ (xs : List (Option ℚ)) (i p q : ℕ) (vp vq : ℚ),
      p < i → i < q → q < xs.length →
      xs.getD p none = some vp → xs.getD q none = some vq →
      (∀ j, j < q → p < j → xs.getD j none = none) →
      (gapFill xs).getD i none =
        some (vp + (vq - vp) * ((i : ℚ) - (p : ℚ)) / ((q : ℚ) - (p : ℚ)))) ∧
    (∀ (xs : List (Option ℚ)) (i q : ℕ) (v : ℚ),
      i < q → q < xs.length → xs.getD q none = some v →
      (∀ j, j < q → xs.getD j none = none) →
      (gapFill xs).getD i none = some v) ∧
    (∀ (xs : List (Option ℚ)) (i p : ℕ) (v : ℚ),
      p < i → i < xs.length → xs.getD p none = some v →
      (∀ j, j < xs.length → p < j → xs.getD j none = none) →
      (gapFill xs).getD i none = some v) :=
  ⟨gapFill_example,
   fun xs i p q vp vq hpi hiq hq hvp hvq hgap =>
     gapFill_interior xs i p q vp vq hpi hiq hq hvp hvq hgap,
   fun xs i q v hiq hq hv hbefore => gapFill_leading xs i q v hiq hq hv hbefore,
   fun xs i p v hpi hi hv hafter => gapFill_trailing xs i p v hpi hi hv hafter⟩

/-- C9: for a positive frame count, the tracker loop succeeds (given
nonzero bounding-box heights) and yields records taken from a strictly
increasing sequence of frame indices — at most one record per analysed
frame — each stamped `start + index * (total_duration / total_frames)`,
so the record timestamps are strictly increasing. -/
theorem track_record_timestamps (start : ℚ) (tf : ℕ)
    (frames : List (List ContourMeasures)) (htf : 1 ≤ tf)
    (hh : ∀ cs ∈ frames, ∀ c ∈ cs, c.h ≠ 0) :
    ∃ recs idxs, runTracker start tf 0 frames = some recs ∧
      idxs.Pairwise (· < ·) ∧
      List.Forall₂
        (fun (j : ℕ) r => MetricRecord.timestamp r = start + (j : ℚ) * (total_duration / tf))
        idxs recs ∧
      (recs.map MetricRecord.timestamp).Pairwise (· < ·) := by
  obtain ⟨recs, idxs, hrun, hpw, -, hf2⟩ := runTracker_spec start tf frames 0 hh
  have hper : 0 < total_duration / (tf : ℚ) := by
    apply div_pos
    · norm_num [total_duration]
    · exact_mod_cast Nat.lt_of_lt_of_le Nat.zero_lt_one htf
  have hmono : ∀ a b : ℕ, a < b → frameTs start tf a < frameTs start tf b := by
    intro a b hab
    unfold frameTs
    have : (a : ℚ) < (b : ℚ) := by exact_mod_cast hab
    have := mul_lt_mul_of_pos_right this hper
    linarith
  refine ⟨recs, idxs, hrun, hpw, hf2, ?_⟩
  rw [forall₂_map_eq (frameTs start tf) idxs recs hf2]
  exact List.Pairwise.map _ (fun a b hab => hmono a b hab) hpw

/-- C9, witness: a two-frame video, the first frame detected, the second
without contours. -/
theorem track_record_timestamps_witness :
    ∃ recs idxs, runTracker 0 10 0 [[sampleContour], []] = some recs ∧
      idxs.Pairwise (· < ·) ∧
      List.Forall₂
        (fun (j : ℕ) r => MetricRecord.timestamp r = 0 + (j : ℚ) * (total_duration / 10))
        idxs recs ∧
      (recs.map MetricRecord.timestamp).Pairwise (· < ·) :=
  track_record_timestamps 0 10 [[sampleContour], []] (by norm_num) (by decide)

/-- C10: when every sample of the series at the outlier stage is the same
value, the variance is zero, the non-finite z-scores fail the
`> z_thresh` comparison and nothing is masked; the series then passes
through interpolation and the edge fills unchanged, and the array handed
to the smoother is the original series — no division error anywhere. -/
theorem constant_series_unmasked (xs : List ℚ) (c : ℚ) (h : ∀ x ∈ xs, x = c) :
    zMaskVals xs = xs.map some ∧
    gapFill (zMaskVals xs) = xs.map some ∧
    unNaN (gapFill (zMaskVals xs)) = xs := by
  have h1 := zMaskVals_const xs c h
  refine ⟨h1, ?_, ?_⟩
  · rw [h1, gapFill_map_some]
  · rw [h1, gapFill_map_some, unNaN, List.map_map]
    simp [Function.comp_def]

/-- C10, witness: the constant series `[7, 7, 7]`. -/
theorem constant_series_unmasked_witness :
    zMaskVals [7, 7, 7] = [(7 : ℚ), 7, 7].map some ∧
    gapFill (zMaskVals [7, 7, 7]) = [(7 : ℚ), 7, 7].map some ∧
    unNaN (gapFill (zMaskVals [7, 7, 7])) = [(7 : ℚ), 7, 7] :=
  constant_series_unmasked [7, 7, 7] 7 (by decide)
